import Mathlib

set_option maxHeartbeats 1000000
set_option maxRecDepth 10000
set_option autoImplicit false

/-!
Shallow embedding of the Research orchestration engine of the `batchflow`
repository (`src/batchflow/research/research.py`): the `DynamicQueue` task
scheduler, the `ResearchResults` store, and the folder and domain checks of
`Research.run`, together with theorems settling the specified properties.

Conventions of the embedding: the Domain iterator is embedded as the list of
configurations it will still yield, the joinable task queue as the list of
`(task_id, configs)` pairs put on it (in order), Python dicts as association
lists with Python update semantics, and the filesystem as the list of
directory paths that exist.  Fallible code returns `Except`.
-/

variable {α : Type} {β : Type} {γ : Type} {δ : Type}

/-- State of a `DynamicQueue` (research.py lines 279-336).  The Python object
holds a Domain iterator (`self.domain`), the branch count (`self.n_branches`),
a joinable queue (`self.queue`), and the producer-side counters
`self.withdrawn_tasks` and `self.finished_tasks`. -/
structure DynamicQueue (α : Type) where
  domain : List α
  n_branches : Nat
  queue : List (Nat × List α)
  withdrawn_tasks : Nat
  finished_tasks : Nat
deriving DecidableEq, Repr

/-- The draw loop of `DynamicQueue.next_tasks` (lines 305-315): for each of
`n` requested tasks it draws `n_branches` configurations one by one from the
domain iterator (`next(self.domain)`); when `StopIteration` is raised
mid-batch a non-empty partial batch is still appended, and drawing stops.
Returns the drawn batches together with the rest of the iterator. -/
def drawBatches (B : Nat) : Nat → List α → List (List α) × List α
  | 0, dom => ([], dom)
  | n + 1, dom =>
    let batch := dom.take B
    if batch.length < B then
      (if 0 < batch.length then [batch] else [], dom.drop B)
    else
      let rest := drawBatches B n (dom.drop B)
      (batch :: rest.1, rest.2)

/-- The number of batches `drawBatches B n` produces on a domain of `R`
remaining configurations. -/
def drawCount (B n R : Nat) : Nat :=
  if B = 0 then n else min n ((R + B - 1) / B)

namespace DynamicQueue

/-- `DynamicQueue.__init__` (lines 281-288): both counters start at 0 and the
queue starts empty. -/
def init (domain : List α) (n_branches : Nat) : DynamicQueue α :=
  { domain := domain, n_branches := n_branches, queue := [],
    withdrawn_tasks := 0, finished_tasks := 0 }

/-- `DynamicQueue.next_tasks` (lines 303-320): draw up to `n_tasks` batches
from the domain, put each on the queue as `(self.withdrawn_tasks + i,
executor_configs)`, add the number of drawn batches to `withdrawn_tasks`, and
return that number. -/
def next_tasks (n_tasks : Nat) (s : DynamicQueue α) : Nat × DynamicQueue α :=
  let d := drawBatches s.n_branches n_tasks s.domain
  let items := d.1.enum.map (fun p => (s.withdrawn_tasks + p.1, p.2))
  (d.1.length,
    { s with domain := d.2, queue := s.queue ++ items,
             withdrawn_tasks := s.withdrawn_tasks + d.1.length })

/-- `DynamicQueue.join` (lines 327-329): `self.queue.join()` blocks until the
consumers have acknowledged every queued item, then `self.finished_tasks` is
incremented by one.  No other field is assigned. -/
def join (s : DynamicQueue α) : DynamicQueue α :=
  { s with finished_tasks := s.finished_tasks + 1 }

/-- `DynamicQueue.in_progress` (lines 331-332). -/
def in_progress (s : DynamicQueue α) : Bool :=
  s.withdrawn_tasks != s.finished_tasks

end DynamicQueue

/-- The items appended to the queue by a single `next_tasks` call. -/
def new_items (n : Nat) (s : DynamicQueue α) : List (Nat × List α) :=
  ((DynamicQueue.next_tasks n s).2.queue).drop s.queue.length

/-- An operation a client can perform on a `DynamicQueue`. -/
inductive DQOp
  | next_tasks (n : Nat)
  | join
deriving DecidableEq, Repr

/-- Apply one operation to the queue state. -/
def applyOp (s : DynamicQueue α) : DQOp → DynamicQueue α
  | .next_tasks n => (DynamicQueue.next_tasks n s).2
  | .join => DynamicQueue.join s

/-- Apply a sequence of operations to the queue state, first operation
first. -/
def applyOps (s : DynamicQueue α) (ops : List DQOp) : DynamicQueue α :=
  ops.foldl applyOp s

/-- The number of `join` operations in a sequence. -/
def countJoins (ops : List DQOp) : Nat :=
  ops.countP (fun o => match o with | .join => true | _ => false)

/-- Repeatedly call `next_tasks`, the i-th call requesting `ns i` tasks,
stopping after the first call that returns 0. -/
def drainSeq : List Nat → DynamicQueue α → DynamicQueue α
  | [], s => s
  | n :: rest, s =>
    let r := DynamicQueue.next_tasks n s
    if r.1 = 0 then r.2 else drainSeq rest r.2

/-- Modelled from the spec: the `Config` class of the batchflow core (not
under `src/`).  Per spec sections 3 and 4.4 a Configuration is a mapping that
carries a full form (`config()`) and a human-readable alias form (`alias()`),
and auxiliary keys may be removed from it (`pop_config`). -/
structure Config where
  cfg : List (String × String)
  als : List (String × String)
deriving DecidableEq, Repr

/-- Modelled from the spec: `Config.config()` returns the full-form
mapping. -/
def Config.config (c : Config) : List (String × String) := c.cfg

/-- Modelled from the spec: `Config.alias()` returns the alias-form
mapping. -/
def Config.alias (c : Config) : List (String × String) := c.als

/-- Modelled from the spec: `Config.pop_config(key)` removes a key from the
Configuration (both forms), in place in Python. -/
def Config.pop_config (c : Config) (k : String) : Config :=
  ⟨c.cfg.filter (fun p => p.1 != k), c.als.filter (fun p => p.1 != k)⟩

/-- The assignment `d[k] = v` on a Python dict embedded as an association
list: an existing key keeps its position and receives the new value, a new
key is appended at the end. -/
def updateAssoc (l : List (String × β)) (k : String) (v : β) :
    List (String × β) :=
  if l.any (fun p => p.1 == k) then
    l.map (fun p => if p.1 == k then (k, v) else p)
  else l ++ [(k, v)]

/-- The Python dict merge `{**a, **b}`: the keys of `a` in order, each with
the value from `b` when `b` also binds it, followed by the keys of `b` not in
`a`, in order. -/
def pyMerge (a b : List (String × String)) : List (String × String) :=
  a.map (fun p =>
    match b.find? (fun q => q.1 == p.1) with
    | some q => (p.1, q.2)
    | none => p)
  ++ b.filter (fun q => !(a.any (fun p => p.1 == q.1)))

/-- The containment test of `filter_ids_by_configs` (lines 534 and 538):
`all(item in sup.items() for item in sub.items())`. -/
def containsAll (sub sup : List (String × String)) : Bool :=
  sub.all (fun p => sup.contains p)

/-- State of `ResearchResults` (lines 397-406): two process-shared mappings
keyed by experiment id, `results[id] : name -> (iteration -> value)` and
`configs[id] : Configuration`.  The `mp.Manager().dict()` proxies (lines
401-402) are embedded as association lists with Python dict update
semantics; values cross the proxy by serialization, so every read hands back
a copy of the stored value. -/
structure RRStore where
  results : List (String × List (String × List (Nat × Int)))
  configs : List (String × Config)
deriving DecidableEq, Repr

/-- `ResearchResults.put` (lines 404-406): `self.results[id] = results` and
`self.configs[id] = config`, overwriting any prior entry for the same id. -/
def RRStore.put (id : String) (r : List (String × List (Nat × Int)))
    (c : Config) (s : RRStore) : RRStore :=
  { results := updateAssoc s.results id r,
    configs := updateAssoc s.configs id c }

/-- `ResearchResults.configs_to_df` (lines 476-491) at the default arguments
`use_alias=True`, `concat_config=False` used by `to_df`.  For each stored id
the source fetches `config = self.configs[experiment_id]`; since
`self.configs` is a `mp.Manager().dict()` proxy (line 402), `__getitem__`
returns a deserialized copy, so the two `pop_config` calls mutate only that
per-call copy and nothing is ever written back into the mapping.  The result
is the pair of the produced frame rows `(id, alias mapping)` and the store
the call leaves behind, namely the unchanged input store.  (The `pd.concat`
failure on a store with no configs at all is outside the embedded
behaviour.) -/
def RRStore.configs_to_df (remove_auxilary : Bool) (s : RRStore) :
    List (String × List (String × String)) × RRStore :=
  (s.configs.map (fun e =>
      let c0 := e.2
      let c := if remove_auxilary then
          (c0.pop_config "repetition").pop_config "device"
        else c0
      (e.1, c.alias)),
    s)

/-- The value rows of `ResearchResults.to_df` (lines 408-426) before the
config merge, at the default `pivot=False`: one row
`(id, name, iteration, value)` per stored iteration entry, in storage
order. -/
def RRStore.to_df_rows (s : RRStore) : List (String × String × Nat × Int) :=
  s.results.flatMap (fun er =>
    er.2.flatMap (fun nr =>
      nr.2.map (fun iv => (er.1, nr.1, iv.1, iv.2))))

/-- `ResearchResults.to_df` at the defaults `pivot=False`,
`include_config=True` (lines 408-429): the value rows inner-merged on `id`
with the rows of `configs_to_df` (default `remove_auxilary=True`), each
surviving row carrying its config columns. -/
def RRStore.to_df (s : RRStore) :
    List ((String × String × Nat × Int) × List (String × String)) :=
  (s.to_df_rows).flatMap (fun row =>
    ((RRStore.configs_to_df true s).1.filter (fun c => c.1 == row.1)).map
      (fun c => (row, c.2)))

/-- The key triple `(id, name, iteration)` of a merged `to_df` row. -/
def rowKey (p : (String × String × Nat × Int) × List (String × String)) :
    String × String × Nat :=
  (p.1.1, p.1.2.1, p.1.2.2.1)

/-- The key triple `(id, name, iteration)` of a raw `to_df` value row. -/
def rowKey3 (r : String × String × Nat × Int) : String × String × Nat :=
  (r.1, r.2.1, r.2.2.1)

/-- Well-formedness of one stored results mapping: dict keys are unique at
both levels, as Python dicts guarantee. -/
def WFExpResults (r : List (String × List (Nat × Int))) : Prop :=
  (r.map Prod.fst).Nodup ∧ ∀ nr ∈ r, ((nr.2.map Prod.fst).Nodup)

/-- Well-formedness of a `ResearchResults` store: all embedded dicts have
unique keys. -/
def RRStore.WF (s : RRStore) : Prop :=
  (s.results.map Prod.fst).Nodup ∧ (s.configs.map Prod.fst).Nodup ∧
    ∀ er ∈ s.results, WFExpResults er.2

/-- The body of `filter_ids_by_configs` after the domain branch (lines
520-540): merge non-empty keyword filters into `config` or `alias` (Python
`{**config, **kwargs}`), return every id when both are still `None`, and
otherwise keep the ids whose stored Configuration (full form when filtering
by `config`, alias form otherwise) contains every given pair. -/
def filter_ids_noDomain (config aliasArg : Option (List (String × String)))
    (kwargs : List (String × String)) (s : RRStore) : List String :=
  let sel : Option (List (String × String)) × Option (List (String × String)) :=
    if 0 < kwargs.length then
      match config, aliasArg with
      | some c, al => (some (pyMerge c kwargs), al)
      | none, some a => (none, some (pyMerge a kwargs))
      | none, none => (some kwargs, none)
    else (config, aliasArg)
  match sel with
  | (none, none) => s.configs.map Prod.fst
  | (some c, _) =>
    (s.configs.filter (fun e => containsAll c e.2.config)).map Prod.fst
  | (none, some a) =>
    (s.configs.filter (fun e => containsAll a e.2.alias)).map Prod.fst

/-- The count `sum([domain is not None, config is not None, alias is not
None])` from line 512. -/
def numGiven (config aliasArg : Option (List (String × String)))
    (domain : Option (List Config)) : Nat :=
  (if domain.isSome then 1 else 0) + (if config.isSome then 1 else 0) +
    (if aliasArg.isSome then 1 else 0)

/-- `ResearchResults.filter_ids_by_configs` (lines 493-540).  Raises
`ValueError` when more than one of `config`, `alias`, `domain` is not
`None`; in domain mode (the given Domain embedded as the list of
Configurations its iterator yields) it unions the ids filtered by the full
form of each produced Configuration, forwarding no keyword filters, exactly
as the recursive call on line 517 does. -/
def filter_ids_by_configs (config aliasArg : Option (List (String × String)))
    (domain : Option (List Config)) (kwargs : List (String × String))
    (s : RRStore) : Except String (List String) :=
  if 1 < numGiven config aliasArg domain then
    .error "Only one of config, alias and domain can be not None"
  else
    match domain with
    | some dcs =>
      .ok (dcs.flatMap (fun c => filter_ids_noDomain (some c.config) none [] s))
    | none => .ok (filter_ids_noDomain config aliasArg kwargs s)

/-- A call of the `filter_ids_by_configs` method viewed as a state
transformer on the store: the method only reads `self.configs`, so the
post-state is the pre-state. -/
def filter_ids_call (config aliasArg : Option (List (String × String)))
    (domain : Option (List Config)) (kwargs : List (String × String))
    (s : RRStore) : Except String (List String) × RRStore :=
  (filter_ids_by_configs config aliasArg domain kwargs s, s)

/-- `Research.create_research_folder` (lines 169-179) over the filesystem
embedded as the list of existing directory paths (component lists):
`os.path.exists` is membership and `os.makedirs` appends.  When the research
folder does not exist it is created together with the four subfolders; when
it exists a `ValueError` is raised. -/
def create_research_folder (name : String) (fs : List (List String)) :
    Except String (List (List String)) :=
  if [name] ∈ fs then
    .error ("Research with name " ++ name ++ " already exists")
  else
    .ok (["configs", "description", "env", "experiments"].foldl
      (fun acc sub => if [name, sub] ∈ acc then acc else acc ++ [[name, sub]])
      (fs ++ [[name]]))

/-- The folder-creation step of `Research.run` (lines 240-241): the research
folder is created only when `dump_results` is set. -/
def run_setup_folders (dump_results : Bool) (name : String)
    (fs : List (List String)) : Except String (List (List String)) :=
  if dump_results then create_research_folder name fs else .ok fs

/-- The names bound at module level by the import statements of
`research.py` (lines 1-21).  `warnings` is not among them. -/
def research_module_names : List String :=
  ["os", "datetime", "csv", "copy", "deepcopy", "itertools", "subprocess",
   "re", "functools", "mp", "dill", "glob", "OrderedDict", "np", "pd",
   "Config", "Domain", "Distributor", "Experiment", "Executor",
   "create_logger", "to_list"]

/-- Outcome of evaluating the unbounded-domain check in `Research.run`. -/
inductive RunCheckOutcome
  | ok
  | warned
  | nameError
deriving DecidableEq, Repr

/-- The unbounded-domain check of `Research.run` (lines 252-254): when
`self.domain.size is None and (self.domain.update_func is None or
self.domain.update_each == "last")` the source evaluates
`warnings.warn(...)`.  Evaluating it first resolves the name `warnings` in
the module namespace; `research.py` never imports `warnings`, so taking this
branch raises `NameError` instead of emitting the warning. -/
def run_unbounded_domain_check (size_is_none update_func_is_none
    update_each_is_last : Bool) : RunCheckOutcome :=
  if size_is_none && (update_func_is_none || update_each_is_last) then
    if research_module_names.contains "warnings" then .warned else .nameError
  else .ok

/-! ### Arithmetic helpers for ceiling division `(R + B - 1) / B` -/

theorem ceilB_le_iff {B R n : Nat} (hB : 0 < B) :
    (R + B - 1) / B ≤ n ↔ R ≤ n * B := by
  have h1 : (R + B - 1) / B ≤ n ↔ (R + B - 1) / B < n + 1 := by omega
  rw [h1, Nat.div_lt_iff_lt_mul hB, Nat.succ_mul]
  omega

theorem ceilB_eq_zero {B R : Nat} (hB : 0 < B) (h : R = 0) :
    (R + B - 1) / B = 0 := by
  subst h
  rw [Nat.zero_add]
  exact Nat.div_eq_of_lt (by omega)

theorem ceilB_split {B R n : Nat} (hB : 0 < B) (h : n * B ≤ R) :
    (R + B - 1) / B = n + ((R - n * B) + B - 1) / B := by
  have he : R + B - 1 = ((R - n * B) + B - 1) + n * B := by omega
  rw [he, Nat.add_mul_div_right _ _ hB]
  omega

theorem ceilB_pos {B R : Nat} (hB : 0 < B) (hR : 0 < R) :
    0 < (R + B - 1) / B := by
  by_contra h
  have h0 : (R + B - 1) / B ≤ 0 := by omega
  have := (ceilB_le_iff hB).mp h0
  omega

/-! ### Lemmas about `drawBatches` -/

theorem drawBatches_snd (B n : Nat) (dom : List α) :
    (drawBatches B n dom).2 = dom.drop (n * B) := by
  induction n generalizing dom with
  | zero => simp [drawBatches]
  | succ n ih =>
    simp only [drawBatches]
    by_cases h : (dom.take B).length < B
    · simp only [h, if_true]
      have hlen : dom.length < B := by
        simp only [List.length_take] at h; omega
      have h2 : dom.length ≤ (n + 1) * B := by
        have : (n + 1) * B = n * B + B := by ring
        omega
      rw [List.drop_eq_nil_of_le (by omega), List.drop_eq_nil_of_le h2]
    · simp only [h, if_false]
      rw [ih, List.drop_drop]
      congr 1
      ring


theorem drawBatches_zero_branches (n : Nat) (dom : List α) :
    (drawBatches 0 n dom).1 = List.replicate n [] := by
  induction n generalizing dom with
  | zero => rfl
  | succ n ih =>
    simp [drawBatches, ih, List.replicate_succ]

theorem drawBatches_fst (B n : Nat) (dom : List α) :
    (drawBatches B n dom).1 =
      (List.range (drawCount B n dom.length)).map
        (fun i => (dom.drop (i * B)).take B) := by
  induction n generalizing dom with
  | zero => simp [drawBatches, drawCount]
  | succ n ih =>
    by_cases hB : B = 0
    · subst hB
      rw [drawBatches_zero_branches]
      simp [drawCount, List.map_const']
    · have hB' : 0 < B := Nat.pos_of_ne_zero hB
      simp only [drawBatches]
      by_cases h : (dom.take B).length < B
      · have hlen : dom.length < B := by
          simp only [List.length_take] at h; omega
        simp only [h, if_true]
        by_cases h0 : 0 < (dom.take B).length
        · have hpos : 0 < dom.length := by
            simp only [List.length_take] at h0; omega
          have hcnt : drawCount B (n + 1) dom.length = 1 := by
            unfold drawCount
            simp only [hB, if_false]
            have hle : (dom.length + B - 1) / B ≤ 1 := by
              rw [ceilB_le_iff hB']; omega
            have hpos2 : 0 < (dom.length + B - 1) / B := ceilB_pos hB' hpos
            omega
          rw [hcnt]
          simp only [h0, if_true, List.range_succ, List.range_zero,
            List.nil_append, List.map_cons, List.map_nil, Nat.zero_mul,
            List.drop_zero]
        · have hlen0 : dom.length = 0 := by
            simp only [List.length_take] at h0; omega
          have hdom : dom = [] := List.length_eq_zero.mp hlen0
          subst hdom
          have hcnt : drawCount B (n + 1) 0 = 0 := by
            unfold drawCount
            simp only [hB, if_false]
            have := ceilB_eq_zero (R := 0) hB' rfl
            omega
          simp [hcnt]
      · have hlen : B ≤ dom.length := by
          simp only [List.length_take] at h; omega
        simp only [h, if_false]
        rw [ih]
        have hstep : drawCount B (n + 1) dom.length
            = drawCount B n (dom.drop B).length + 1 := by
          unfold drawCount
          simp only [hB, if_false, List.length_drop]
          rw [ceilB_split (n := 1) hB' (by omega)]
          simp only [Nat.one_mul]
          omega
        rw [hstep, List.range_succ_eq_map, List.map_cons, List.map_map]
        refine congrArg₂ _ ?_ ?_
        · simp
        · refine List.map_congr_left (fun i _ => ?_)
          simp only [Function.comp_apply, List.drop_drop]
          have : B + i * B = Nat.succ i * B := by
            rw [Nat.succ_mul]; omega
          rw [this]

theorem drawBatches_length (B n : Nat) (dom : List α) :
    (drawBatches B n dom).1.length = drawCount B n dom.length := by
  rw [drawBatches_fst]
  simp

theorem drawBatches_flatten (B n : Nat) (dom : List α) :
    (drawBatches B n dom).1.flatten = dom.take (n * B) := by
  induction n generalizing dom with
  | zero => simp [drawBatches]
  | succ n ih =>
    simp only [drawBatches]
    by_cases h : (dom.take B).length < B
    · have hlen : dom.length < B := by
        simp only [List.length_take] at h; omega
      simp only [h, if_true]
      by_cases h0 : 0 < (dom.take B).length
      · simp only [h0, if_true, List.flatten_cons, List.flatten_nil, List.append_nil]
        rw [List.take_of_length_le (by omega), List.take_of_length_le]
        have : (n + 1) * B = n * B + B := by ring
        omega
      · have hlen0 : dom.length = 0 := by
          simp only [List.length_take] at h0; omega
        have hdom : dom = [] := List.length_eq_zero.mp hlen0
        subst hdom
        simp
    · simp only [h, if_false, List.flatten_cons]
      rw [ih]
      have : (n + 1) * B = B + n * B := by ring
      rw [this, List.take_add]

theorem drawBatches_dropLast_sizes (B n : Nat) (dom : List α) :
    ∀ b ∈ (drawBatches B n dom).1.dropLast, b.length = B := by
  induction n generalizing dom with
  | zero => simp [drawBatches]
  | succ n ih =>
    simp only [drawBatches]
    by_cases h : (dom.take B).length < B
    · simp only [h, if_true]
      split <;> simp
    · simp only [h, if_false]
      have hfull : (dom.take B).length = B := by
        simp only [List.length_take] at h ⊢; omega
      cases hr : (drawBatches B n (dom.drop B)).1 with
      | nil => simp
      | cons x t =>
        rw [List.dropLast_cons₂]
        intro b hb
        rcases List.mem_cons.mp hb with rfl | hb
        · exact hfull
        · exact ih (dom.drop B) b (by rw [hr]; exact hb)

theorem drawBatches_getLast_short (B n : Nat) (dom : List α) :
    ∀ b, (drawBatches B n dom).1.getLast? = some b →
      (b.length < B ↔ (dom.length < n * B ∧ dom.length % B ≠ 0)) := by
  induction n generalizing dom with
  | zero => simp [drawBatches]
  | succ n ih =>
    intro b hb
    simp only [drawBatches] at hb
    by_cases h : (dom.take B).length < B
    · have hB : 0 < B := by omega
      have hlen : dom.length < B := by
        simp only [List.length_take] at h; omega
      simp only [h, if_true] at hb
      by_cases h0 : 0 < (dom.take B).length
      · have hpos : 0 < dom.length := by
          simp only [List.length_take] at h0; omega
        simp only [h0, if_true, List.getLast?_singleton, Option.some_inj] at hb
        subst hb
        rw [List.length_take]
        have hmod : dom.length % B = dom.length := Nat.mod_eq_of_lt hlen
        have hmul : dom.length < (n + 1) * B := by
          have : (n + 1) * B = n * B + B := by ring
          omega
        constructor
        · intro _; exact ⟨hmul, by omega⟩
        · intro _; omega
      · rw [if_neg h0] at hb
        simp at hb
    · have hBle : B ≤ dom.length := by
        simp only [List.length_take] at h; omega
      simp only [h, if_false] at hb
      cases hr : (drawBatches B n (dom.drop B)).1 with
      | nil =>
        rw [hr, List.getLast?_singleton, Option.some_inj] at hb
        subst hb
        have hfull : (dom.take B).length = B := by
          simp only [List.length_take]; omega
        rw [hfull]
        simp only [Nat.lt_irrefl, false_iff]
        have hlen0 : (drawBatches B n (dom.drop B)).1.length = 0 := by
          rw [hr]; rfl
        rw [drawBatches_length] at hlen0
        intro hcon
        obtain ⟨hcon1, hcon2⟩ := hcon
        by_cases hB : B = 0
        · subst hB; omega
        · have hB' : 0 < B := Nat.pos_of_ne_zero hB
          simp only [drawCount, hB, if_false, List.length_drop] at hlen0
          rcases Nat.min_eq_zero_iff.mp hlen0 with hn0 | hc0
          · subst hn0
            have : (0 + 1) * B = B := by ring
            omega
          · have hR : dom.length - B = 0 := by
              by_contra hne
              have := ceilB_pos hB' (Nat.pos_of_ne_zero hne)
              omega
            have hdomB : dom.length = B := by omega
            exact hcon2 (by rw [hdomB, Nat.mod_self])
      | cons x t =>
        rw [hr, List.getLast?_cons_cons] at hb
        have hbt := ih (dom.drop B) b (by rw [hr]; exact hb)
        rw [List.length_drop] at hbt
        have he : dom.length - B + B = dom.length := by omega
        have hmod : (dom.length - B) % B = dom.length % B := by
          conv_rhs => rw [← he]
          rw [Nat.add_mod_right]
        have hiff : dom.length - B < n * B ↔ dom.length < (n + 1) * B := by
          have : (n + 1) * B = n * B + B := by ring
          omega
        rw [hbt, hmod, hiff]

/-! ### Lemmas about a single `next_tasks` call -/

theorem enum_shift_map_fst (w : Nat) (bs : List (List α)) :
    (bs.enum.map (fun p => (w + p.1, p.2))).map Prod.fst
      = List.range' w bs.length := by
  rw [List.map_map]
  have h1 : (Prod.fst ∘ fun p : Nat × List α => (w + p.1, p.2))
      = (fun x => w + x) ∘ Prod.fst := rfl
  rw [h1, ← List.map_map, List.enum_map_fst, ← List.range'_eq_map_range]

theorem enum_shift_map_snd (w : Nat) (bs : List (List α)) :
    (bs.enum.map (fun p => (w + p.1, p.2))).map Prod.snd = bs := by
  rw [List.map_map]
  have h1 : (Prod.snd ∘ fun p : Nat × List α => (w + p.1, p.2)) = Prod.snd := rfl
  rw [h1, List.enum_map_snd]

theorem next_tasks_fst (n : Nat) (s : DynamicQueue α) :
    (DynamicQueue.next_tasks n s).1 = drawCount s.n_branches n s.domain.length := by
  show (drawBatches s.n_branches n s.domain).1.length = _
  exact drawBatches_length _ _ _

theorem next_tasks_domain (n : Nat) (s : DynamicQueue α) :
    (DynamicQueue.next_tasks n s).2.domain = s.domain.drop (n * s.n_branches) :=
  drawBatches_snd _ _ _

theorem next_tasks_withdrawn (n : Nat) (s : DynamicQueue α) :
    (DynamicQueue.next_tasks n s).2.withdrawn_tasks
      = s.withdrawn_tasks + (DynamicQueue.next_tasks n s).1 := rfl

theorem next_tasks_finished (n : Nat) (s : DynamicQueue α) :
    (DynamicQueue.next_tasks n s).2.finished_tasks = s.finished_tasks := rfl

theorem next_tasks_branches (n : Nat) (s : DynamicQueue α) :
    (DynamicQueue.next_tasks n s).2.n_branches = s.n_branches := rfl

theorem next_tasks_queue (n : Nat) (s : DynamicQueue α) :
    (DynamicQueue.next_tasks n s).2.queue
      = s.queue ++ (drawBatches s.n_branches n s.domain).1.enum.map
          (fun p => (s.withdrawn_tasks + p.1, p.2)) := rfl

theorem new_items_eq (n : Nat) (s : DynamicQueue α) :
    new_items n s = (drawBatches s.n_branches n s.domain).1.enum.map
      (fun p => (s.withdrawn_tasks + p.1, p.2)) := by
  unfold new_items
  rw [next_tasks_queue, List.drop_left]

theorem next_tasks_queue_map_fst (n : Nat) (s : DynamicQueue α) :
    (DynamicQueue.next_tasks n s).2.queue.map Prod.fst
      = s.queue.map Prod.fst
        ++ List.range' s.withdrawn_tasks (DynamicQueue.next_tasks n s).1 := by
  rw [next_tasks_queue, List.map_append, enum_shift_map_fst]
  rfl

/-! ### Draining the whole domain through repeated `next_tasks` calls -/

theorem drainSeq_spec (ns : List Nat) (s : DynamicQueue α)
    (hB : 1 ≤ s.n_branches) (hns : ∀ n ∈ ns, 1 ≤ n)
    (hlen : s.domain.length ≤ ns.length) :
    (drainSeq ns s).withdrawn_tasks
        = s.withdrawn_tasks + (s.domain.length + s.n_branches - 1) / s.n_branches
    ∧ (drainSeq ns s).queue.map Prod.fst
        = s.queue.map Prod.fst ++
            List.range' s.withdrawn_tasks
              ((s.domain.length + s.n_branches - 1) / s.n_branches)
    ∧ (drainSeq ns s).domain = []
    ∧ (drainSeq ns s).finished_tasks = s.finished_tasks := by
  induction ns generalizing s with
  | nil =>
    have hdom : s.domain = [] := List.length_eq_zero.mp (by simpa using hlen)
    have hc1 : (s.n_branches - 1) / s.n_branches = 0 :=
      Nat.div_eq_of_lt (by omega)
    simp [drainSeq, hdom, hc1]
  | cons n rest ih =>
    have hn : 1 ≤ n := hns n (List.mem_cons_self n rest)
    have hns' : ∀ m ∈ rest, 1 ≤ m := fun m hm => hns m (List.mem_cons_of_mem n hm)
    have hB' : 0 < s.n_branches := hB
    simp only [drainSeq]
    by_cases hk : (DynamicQueue.next_tasks n s).1 = 0
    · -- a call that returns 0: the domain was already exhausted
      have hR : s.domain.length = 0 := by
        rw [next_tasks_fst] at hk
        unfold drawCount at hk
        by_cases hBz : s.n_branches = 0
        · omega
        · simp only [hBz, if_false] at hk
          rcases Nat.min_eq_zero_iff.mp hk with h1 | h2
          · omega
          · by_contra hne
            have hpos : 0 < s.domain.length := Nat.pos_of_ne_zero hne
            have := ceilB_pos hB' hpos
            omega
      have hdom : s.domain = [] := List.length_eq_zero.mp hR
      have hc : (s.domain.length + s.n_branches - 1) / s.n_branches = 0 :=
        ceilB_eq_zero hB' hR
      rw [if_pos hk]
      refine ⟨?_, ?_, ?_, ?_⟩
      · rw [next_tasks_withdrawn, hk, hc]
      · rw [next_tasks_queue_map_fst, hk, hc]
      · rw [next_tasks_domain, hdom, List.drop_nil]
      · exact next_tasks_finished n s
    · rw [if_neg hk]
      have hR : 0 < s.domain.length := by
        by_contra hR0
        have hR' : s.domain.length = 0 := by omega
        rw [next_tasks_fst] at hk
        unfold drawCount at hk
        by_cases hBz : s.n_branches = 0
        · omega
        · simp only [hBz, if_false] at hk
          rw [hR', ceilB_eq_zero hB' rfl] at hk
          simp at hk
      set s2 := (DynamicQueue.next_tasks n s).2 with hs2
      have hb2 : s2.n_branches = s.n_branches := next_tasks_branches n s
      have hd2 : s2.domain.length = s.domain.length - n * s.n_branches := by
        rw [hs2, next_tasks_domain, List.length_drop]
      have hnB : 1 ≤ n * s.n_branches := Nat.one_le_iff_ne_zero.mpr (by
        intro h0
        rcases Nat.mul_eq_zero.mp h0 with h | h <;> omega)
      have hlen2 : s2.domain.length ≤ rest.length := by
        simp only [List.length_cons] at hlen
        omega
      obtain ⟨ihw, ihq, ihd, ihf⟩ := ih s2 (by omega) hns' hlen2
      have hkval : (DynamicQueue.next_tasks n s).1
          = min n ((s.domain.length + s.n_branches - 1) / s.n_branches) := by
        rw [next_tasks_fst]
        unfold drawCount
        rw [if_neg (by omega)]
      have hsplit : (s.domain.length + s.n_branches - 1) / s.n_branches
          = (DynamicQueue.next_tasks n s).1
            + (s2.domain.length + s.n_branches - 1) / s.n_branches := by
        rw [hkval, hd2]
        by_cases hcase : s.domain.length ≤ n * s.n_branches
        · have h0 : s.domain.length - n * s.n_branches = 0 := by omega
          rw [h0, ceilB_eq_zero hB' rfl]
          have hle : (s.domain.length + s.n_branches - 1) / s.n_branches ≤ n :=
            (ceilB_le_iff hB').mpr hcase
          omega
        · have hge : ¬ ((s.domain.length + s.n_branches - 1) / s.n_branches ≤ n) := by
            rw [ceilB_le_iff hB']; omega
          have := ceilB_split (n := n) hB' (by omega : n * s.n_branches ≤ s.domain.length)
          omega
      refine ⟨?_, ?_, ?_, ?_⟩
      · rw [ihw, hb2, hd2, hs2, next_tasks_withdrawn, hsplit, hd2]
        ring
      · rw [ihq, hb2, hs2, next_tasks_queue_map_fst, next_tasks_withdrawn,
          List.append_assoc, hsplit]
        congr 1
        have hr := List.range'_append s.withdrawn_tasks
          (DynamicQueue.next_tasks n s).1
          ((s2.domain.length + s.n_branches - 1) / s.n_branches) 1
        simp only [Nat.one_mul, Nat.mul_one] at hr
        rw [Nat.add_comm ((DynamicQueue.next_tasks n s).1)
          ((s2.domain.length + s.n_branches - 1) / s.n_branches)]
        exact hr
      · rw [ihd]
      · rw [ihf, hs2, next_tasks_finished]

/-! ### Counters under sequences of operations -/

theorem finished_applyOps (s : DynamicQueue α) (ops : List DQOp) :
    (applyOps s ops).finished_tasks = s.finished_tasks + countJoins ops := by
  induction ops generalizing s with
  | nil => simp [applyOps, countJoins]
  | cons op rest ih =>
    have h1 : applyOps s (op :: rest) = applyOps (applyOp s op) rest := rfl
    rw [h1, ih]
    cases op with
    | next_tasks n =>
      rw [show (applyOp s (DQOp.next_tasks n)).finished_tasks
          = s.finished_tasks from rfl]
      simp [countJoins, List.countP_cons]
    | join =>
      rw [show (applyOp s DQOp.join).finished_tasks
          = s.finished_tasks + 1 from rfl]
      simp [countJoins, List.countP_cons]
      omega

theorem in_progress_iff (s : DynamicQueue α) :
    DynamicQueue.in_progress s = true ↔ s.withdrawn_tasks ≠ s.finished_tasks := by
  simp [DynamicQueue.in_progress]

/-! ### Claim theorems for the DynamicQueue -/

/-- Claim C1: every call of `DynamicQueue.join` increments `finished_tasks`
by exactly 1, in every state, regardless of what is on the queue (and hence
regardless of how many items the consumers drained before the underlying
`queue.join()` released), and `join` changes no other field of the queue. -/
theorem join_increments_finished_by_one (s : DynamicQueue α) :
    (DynamicQueue.join s).finished_tasks = s.finished_tasks + 1
    ∧ (DynamicQueue.join s).withdrawn_tasks = s.withdrawn_tasks
    ∧ (DynamicQueue.join s).queue = s.queue
    ∧ (DynamicQueue.join s).domain = s.domain
    ∧ (DynamicQueue.join s).n_branches = s.n_branches :=
  ⟨rfl, rfl, rfl, rfl, rfl⟩

/-- Claim C2: for a Domain of known finite size `S` and branch count
`B ≥ 1`, repeatedly calling `next_tasks` (with any positive request sizes,
long enough to exhaust the Domain, stopping once a call returns 0) enqueues
tasks whose ids are exactly `0, 1, ..., ceil(S / B) - 1` in order — each id
equal to the running withdrawal counter at the moment of enqueue — so
exactly `ceil(S / B)` distinct ids are assigned, none is ever reused, and
the final withdrawal counter equals `ceil(S / B)`. -/
theorem drain_assigns_ceil_task_ids (dom : List α) (B : Nat)
    (ns : List Nat) (hB : 1 ≤ B) (hns : ∀ n ∈ ns, 1 ≤ n)
    (hlen : dom.length ≤ ns.length) :
    (drainSeq ns (DynamicQueue.init dom B)).queue.map Prod.fst
        = List.range ((dom.length + B - 1) / B)
    ∧ (drainSeq ns (DynamicQueue.init dom B)).withdrawn_tasks
        = (dom.length + B - 1) / B
    ∧ ((drainSeq ns (DynamicQueue.init dom B)).queue.map Prod.fst).Nodup := by
  obtain ⟨hw, hq, -, -⟩ := drainSeq_spec ns (DynamicQueue.init dom B) hB hns hlen
  simp only [DynamicQueue.init] at hw hq ⊢
  rw [List.map_nil, List.nil_append, ← List.range_eq_range'] at hq
  simp only [Nat.zero_add] at hw
  exact ⟨hq, hw, hq ▸ List.nodup_range _⟩

/-- Witness for C2 at a Domain of 5 configurations, `B = 2`, drained by
calls requesting one task each: `ceil(5 / 2) = 3` task ids `0, 1, 2`. -/
theorem drain_assigns_ceil_task_ids_witness :
    (1 ≤ 2) ∧ (∀ n ∈ ([1, 1, 1, 1, 1] : List Nat), 1 ≤ n)
    ∧ ([10, 20, 30, 40, 50].length ≤ [1, 1, 1, 1, 1].length)
    ∧ ((drainSeq [1, 1, 1, 1, 1]
          (DynamicQueue.init ([10, 20, 30, 40, 50] : List Nat) 2)).queue.map Prod.fst
        = List.range (([10, 20, 30, 40, 50].length + 2 - 1) / 2)
      ∧ (drainSeq [1, 1, 1, 1, 1]
          (DynamicQueue.init ([10, 20, 30, 40, 50] : List Nat) 2)).withdrawn_tasks
        = ([10, 20, 30, 40, 50].length + 2 - 1) / 2
      ∧ ((drainSeq [1, 1, 1, 1, 1]
          (DynamicQueue.init ([10, 20, 30, 40, 50] : List Nat) 2)).queue.map Prod.fst).Nodup) :=
  ⟨by decide, by decide, by decide,
    drain_assigns_ceil_task_ids _ _ _ (by decide) (by decide) (by decide)⟩

/-- Claim C3: a single `next_tasks n` call takes exactly the first
`min (n * n_branches, remaining)` configurations off the Domain (so it draws
at most `n * n_branches` and never more than remain); every enqueued batch
has exactly `n_branches` configurations except possibly the last, which is
short iff the Domain was exhausted mid-batch (fewer than `n * n_branches`
configurations remained and the remainder was not a multiple of
`n_branches`), in which case the non-empty partial batch is still enqueued;
and the returned number is exactly the number of batches enqueued. -/
theorem next_tasks_single_call_spec (s : DynamicQueue α) (n : Nat) :
    (DynamicQueue.next_tasks n s).2.domain = s.domain.drop (n * s.n_branches)
    ∧ ((new_items n s).map Prod.snd).flatten = s.domain.take (n * s.n_branches)
    ∧ s.domain.length - (DynamicQueue.next_tasks n s).2.domain.length
        ≤ n * s.n_branches
    ∧ (∀ b ∈ (new_items n s).dropLast, b.2.length = s.n_branches)
    ∧ (∀ b, (new_items n s).getLast? = some b →
        (b.2.length < s.n_branches ↔
          (s.domain.length < n * s.n_branches
            ∧ s.domain.length % s.n_branches ≠ 0)))
    ∧ (DynamicQueue.next_tasks n s).1 = (new_items n s).length
    ∧ (DynamicQueue.next_tasks n s).2.queue = s.queue ++ new_items n s := by
  refine ⟨next_tasks_domain n s, ?_, ?_, ?_, ?_, ?_, ?_⟩
  · rw [new_items_eq, enum_shift_map_snd, drawBatches_flatten]
  · rw [next_tasks_domain, List.length_drop]
    omega
  · intro b hb
    rw [new_items_eq, ← List.map_dropLast] at hb
    obtain ⟨p, hp, rfl⟩ := List.mem_map.mp hb
    have hmem : p.2 ∈ (drawBatches s.n_branches n s.domain).1.dropLast := by
      have h2 := List.mem_map_of_mem Prod.snd hp
      rwa [List.map_dropLast, List.enum_map_snd] at h2
    exact drawBatches_dropLast_sizes _ _ _ _ hmem
  · intro b hb
    rw [new_items_eq, List.getLast?_map] at hb
    obtain ⟨p, hp, rfl⟩ := Option.map_eq_some'.mp hb
    have hlast : (drawBatches s.n_branches n s.domain).1.getLast? = some p.2 := by
      have h2 := List.getLast?_map (Prod.snd)
        ((drawBatches s.n_branches n s.domain).1.enum)
      rw [List.enum_map_snd] at h2
      rw [h2, hp]
      rfl
    exact drawBatches_getLast_short s.n_branches n s.domain p.2 hlast
  · rw [new_items_eq]
    show (drawBatches s.n_branches n s.domain).1.length = _
    simp
  · rw [new_items_eq]
    exact next_tasks_queue n s

/-- Witness for C3 on a Domain with 5 remaining configurations, 2 branches,
requesting 3 tasks: the partial last batch is short because the Domain was
exhausted mid-batch. -/
theorem next_tasks_single_call_spec_witness :
    (∀ b ∈ (new_items 3 (DynamicQueue.init ([1, 2, 3, 4, 5] : List Nat) 2)).dropLast,
        b.2.length = 2)
    ∧ (∀ b, (new_items 3 (DynamicQueue.init ([1, 2, 3, 4, 5] : List Nat) 2)).getLast?
          = some b →
        (b.2.length < 2 ↔
          ([1, 2, 3, 4, 5].length < 3 * 2 ∧ [1, 2, 3, 4, 5].length % 2 ≠ 0)))
    ∧ (DynamicQueue.next_tasks 3 (DynamicQueue.init ([1, 2, 3, 4, 5] : List Nat) 2)).1
        = (new_items 3 (DynamicQueue.init ([1, 2, 3, 4, 5] : List Nat) 2)).length := by
  have h := next_tasks_single_call_spec
    (DynamicQueue.init ([1, 2, 3, 4, 5] : List Nat) 2) 3
  exact ⟨h.2.2.2.1, h.2.2.2.2.1, h.2.2.2.2.2.1⟩

/-- Claim C4 counterexample: calling `join` on a freshly initialized
`DynamicQueue` (a reachable operation sequence consisting of one `join`)
makes `finished_tasks = 1 > withdrawn_tasks = 0`, so the invariant
`withdrawn_tasks ≥ finished_tasks` does not hold in every state reachable by
arbitrary sequences of `next_tasks` and `join`. -/
theorem withdrawn_ge_finished_fails_on_early_join :
    ¬ ((applyOps (DynamicQueue.init ([0] : List Nat) 1) [DQOp.join]).finished_tasks
        ≤ (applyOps (DynamicQueue.init ([0] : List Nat) 1) [DQOp.join]).withdrawn_tasks) := by
  decide

/-- Claim C4 (amended): `join` increments `finished_tasks` unconditionally,
so `withdrawn_tasks ≥ finished_tasks` holds exactly for operation sequences
whose number of `join` calls does not exceed the number of tasks withdrawn;
under that guard the invariant holds, and in every state `in_progress`
returns true iff `withdrawn_tasks` differs from `finished_tasks`. -/
theorem withdrawn_ge_finished_guarded (dom : List α) (B : Nat)
    (ops : List DQOp)
    (h : countJoins ops ≤ (applyOps (DynamicQueue.init dom B) ops).withdrawn_tasks) :
    (applyOps (DynamicQueue.init dom B) ops).finished_tasks
        ≤ (applyOps (DynamicQueue.init dom B) ops).withdrawn_tasks
    ∧ (∀ t : DynamicQueue α, DynamicQueue.in_progress t = true
        ↔ t.withdrawn_tasks ≠ t.finished_tasks) := by
  refine ⟨?_, fun t => in_progress_iff t⟩
  rw [finished_applyOps]
  simpa [DynamicQueue.init] using h

/-- Witness for the amended C4 on the sequence `next_tasks 1; join`, which
withdraws one task before its single `join`. -/
theorem withdrawn_ge_finished_guarded_witness :
    countJoins [DQOp.next_tasks 1, DQOp.join]
        ≤ (applyOps (DynamicQueue.init ([5] : List Nat) 1)
            [DQOp.next_tasks 1, DQOp.join]).withdrawn_tasks
    ∧ ((applyOps (DynamicQueue.init ([5] : List Nat) 1)
            [DQOp.next_tasks 1, DQOp.join]).finished_tasks
        ≤ (applyOps (DynamicQueue.init ([5] : List Nat) 1)
            [DQOp.next_tasks 1, DQOp.join]).withdrawn_tasks
      ∧ (∀ t : DynamicQueue Nat, DynamicQueue.in_progress t = true
          ↔ t.withdrawn_tasks ≠ t.finished_tasks)) :=
  ⟨by decide, withdrawn_ge_finished_guarded _ _ _ (by decide)⟩

/-! ### Lemmas about the ResearchResults store -/

theorem updateAssoc_idem (l : List (String × β)) (k : String) (v : β) :
    updateAssoc (updateAssoc l k v) k v = updateAssoc l k v := by
  unfold updateAssoc
  by_cases h : l.any (fun p => p.1 == k)
  · simp only [h, if_true]
    have hany : (l.map (fun p => if p.1 == k then (k, v) else p)).any
        (fun p => p.1 == k) = true := by
      rw [List.any_map]
      obtain ⟨x, hx, hxk⟩ := List.any_eq_true.mp h
      refine List.any_eq_true.mpr ⟨x, hx, ?_⟩
      show ((if (x.1 == k) = true then (k, v) else x).1 == k) = true
      rw [if_pos hxk]
      simp
    simp only [hany, if_true, List.map_map]
    refine List.map_congr_left (fun p _ => ?_)
    by_cases hp : (p.1 == k) = true
    · rw [Function.comp_apply, if_pos hp]
      split <;> rfl
    · rw [Function.comp_apply, if_neg hp, if_neg hp]
  · rw [if_neg h]
    have hany : ((l ++ [(k, v)]).any (fun p => p.1 == k)) = true :=
      List.any_eq_true.mpr ⟨(k, v), by simp, by simp⟩
    rw [if_pos hany, List.map_append]
    have h1 : l.map (fun p => if p.1 == k then (k, v) else p) = l := by
      have h2 : ∀ p ∈ l, (if (p.1 == k) = true then (k, v) else p) = p := by
        intro p hp
        refine if_neg ?_
        intro hc
        exact absurd (List.any_eq_true.mpr ⟨p, hp, hc⟩) h
      calc l.map (fun p => if p.1 == k then (k, v) else p) = l.map id :=
            List.map_congr_left (fun p hp => h2 p hp)
        _ = l := List.map_id l
    rw [h1]
    simp

theorem put_idem (id : String) (r : List (String × List (Nat × Int)))
    (c : Config) (s : RRStore) :
    RRStore.put id r c (RRStore.put id r c s) = RRStore.put id r c s := by
  unfold RRStore.put
  simp [updateAssoc_idem]

theorem put_iterate (id : String) (r : List (String × List (Nat × Int)))
    (c : Config) (s : RRStore) (n : Nat) :
    (RRStore.put id r c)^[n + 1] s = RRStore.put id r c s := by
  induction n with
  | zero => rfl
  | succ n ih =>
    rw [Function.iterate_succ_apply', ih]
    exact put_idem id r c s

theorem updateAssoc_map_fst_nodup (l : List (String × β)) (k : String) (v : β)
    (h : (l.map Prod.fst).Nodup) :
    ((updateAssoc l k v).map Prod.fst).Nodup := by
  unfold updateAssoc
  by_cases hany : l.any (fun p => p.1 == k)
  · simp only [hany, if_true, List.map_map]
    have h1 : l.map (Prod.fst ∘ fun p => if p.1 == k then (k, v) else p)
        = l.map Prod.fst := by
      refine List.map_congr_left (fun p _ => ?_)
      by_cases hp : (p.1 == k) = true
      · rw [Function.comp_apply, if_pos hp]
        exact (eq_of_beq hp).symm
      · rw [Function.comp_apply, if_neg hp]
    rw [h1]
    exact h
  · rw [if_neg hany, List.map_append]
    rw [List.nodup_append]
    refine ⟨h, by simp, ?_⟩
    intro a ha hb
    simp only [List.map_cons, List.map_nil, List.mem_singleton] at hb
    subst hb
    obtain ⟨p, hp, hpk⟩ := List.mem_map.mp ha
    refine absurd (List.any_eq_true.mpr ⟨p, hp, ?_⟩) hany
    rw [hpk]
    simp

theorem mem_updateAssoc (l : List (String × β)) (k : String) (v : β) :
    ∀ e ∈ updateAssoc l k v, e ∈ l ∨ e = (k, v) := by
  unfold updateAssoc
  by_cases hany : l.any (fun p => p.1 == k)
  · rw [if_pos hany]
    intro e he
    obtain ⟨p, hp, rfl⟩ := List.mem_map.mp he
    by_cases hpk : (p.1 == k) = true
    · rw [if_pos hpk]
      exact Or.inr rfl
    · rw [if_neg hpk]
      exact Or.inl hp
  · rw [if_neg hany]
    intro e he
    rcases List.mem_append.mp he with h | h
    · exact Or.inl h
    · simp only [List.mem_singleton] at h
      exact Or.inr h

theorem WF_put (s : RRStore) (id : String) (r : List (String × List (Nat × Int)))
    (c : Config) (hs : s.WF) (hr : WFExpResults r) :
    (RRStore.put id r c s).WF := by
  obtain ⟨h1, h2, h3⟩ := hs
  refine ⟨updateAssoc_map_fst_nodup _ _ _ h1, updateAssoc_map_fst_nodup _ _ _ h2, ?_⟩
  intro er her
  rcases mem_updateAssoc _ _ _ er her with h | h
  · exact h3 er h
  · rw [h]
    exact hr

/-! ### Uniqueness of the rows produced by `to_df` -/

theorem nodup_flatMap_of_tags (l : List β) (f : β → List γ)
    (tag : β → δ) (kf : γ → δ)
    (htag : (l.map tag).Nodup)
    (hconst : ∀ a ∈ l, ∀ b ∈ f a, kf b = tag a)
    (hnd : ∀ a ∈ l, (f a).Nodup) :
    (l.flatMap f).Nodup := by
  induction l with
  | nil => simp
  | cons a t ih =>
    rw [List.flatMap_cons]
    rw [List.map_cons, List.nodup_cons] at htag
    refine List.Nodup.append (hnd a (List.mem_cons_self a t)) ?_ ?_
    · exact ih htag.2
        (fun x hx b hb => hconst x (List.mem_cons_of_mem a hx) b hb)
        (fun x hx => hnd x (List.mem_cons_of_mem a hx))
    · intro b hba hbt
      obtain ⟨x, hx, hbx⟩ := List.mem_flatMap.mp hbt
      have e1 : kf b = tag a := hconst a (List.mem_cons_self a t) b hba
      have e2 : kf b = tag x := hconst x (List.mem_cons_of_mem a hx) b hbx
      exact htag.1 (e1 ▸ e2 ▸ List.mem_map_of_mem tag hx)

theorem to_df_rows_keys_nodup (s : RRStore) (h : s.WF) :
    ((s.to_df_rows).map rowKey3).Nodup := by
  obtain ⟨h1, -, h3⟩ := h
  unfold RRStore.to_df_rows
  rw [List.map_flatMap]
  refine nodup_flatMap_of_tags s.results
    (fun er => List.map rowKey3 (er.2.flatMap fun nr =>
      List.map (fun iv => (er.1, nr.1, iv.1, iv.2)) nr.2))
    Prod.fst (fun key : String × String × Nat => key.1) h1 ?_ ?_
  · intro er _ key hkey
    simp only [List.map_flatMap, List.mem_flatMap] at hkey
    obtain ⟨nr, _, hk2⟩ := hkey
    simp only [List.map_map, List.mem_map] at hk2
    obtain ⟨iv, _, rfl⟩ := hk2
    rfl
  · intro er her
    simp only [List.map_flatMap]
    obtain ⟨hn1, hn2⟩ := h3 er her
    refine nodup_flatMap_of_tags er.2
      (fun nr => List.map rowKey3
        (List.map (fun iv => (er.1, nr.1, iv.1, iv.2)) nr.2))
      Prod.fst (fun key : String × String × Nat => key.2.1) hn1 ?_ ?_
    · intro nr _ key hkey
      simp only [List.map_map, List.mem_map] at hkey
      obtain ⟨iv, _, rfl⟩ := hkey
      rfl
    · intro nr hnr
      simp only [List.map_map]
      have hcomp : (rowKey3 ∘ fun iv : Nat × Int => (er.1, nr.1, iv.1, iv.2))
          = (fun it : Nat => (er.1, nr.1, it)) ∘ Prod.fst := rfl
      rw [hcomp, ← List.map_map]
      have hinj : Function.Injective (fun it : Nat => (er.1, nr.1, it)) := by
        intro x y hxy
        simpa using hxy
      exact (hn2 nr hnr).map hinj

theorem flatMap_map_sublist (l : List β) (f : β → List γ) (g : γ → δ)
    (g2 : β → δ)
    (h : ∀ b ∈ l, ((f b).map g = [] ∨ (f b).map g = [g2 b])) :
    ((l.flatMap f).map g).Sublist (l.map g2) := by
  induction l with
  | nil => simp
  | cons b t ih =>
    rw [List.flatMap_cons, List.map_append, List.map_cons]
    rcases h b (List.mem_cons_self b t) with h0 | h1
    · rw [h0, List.nil_append]
      exact (ih (fun x hx => h x (List.mem_cons_of_mem b hx))).cons (g2 b)
    · rw [h1, List.singleton_append]
      exact (ih (fun x hx => h x (List.mem_cons_of_mem b hx))).cons₂ (g2 b)

theorem length_filter_fst_le_one (l : List (String × β)) (i : String)
    (h : (l.map Prod.fst).Nodup) :
    (l.filter (fun p => p.1 == i)).length ≤ 1 := by
  induction l with
  | nil => simp
  | cons p t ih =>
    rw [List.map_cons, List.nodup_cons] at h
    rw [List.filter_cons]
    by_cases hp : (p.1 == i) = true
    · rw [if_pos hp]
      have ht : t.filter (fun q => q.1 == i) = [] := by
        rw [List.filter_eq_nil_iff]
        intro q hq hqi
        refine h.1 ?_
        have e1 : q.1 = i := eq_of_beq hqi
        have e2 : p.1 = i := eq_of_beq hp
        rw [e2, ← e1]
        exact List.mem_map_of_mem Prod.fst hq
      rw [ht]
      simp
    · rw [if_neg hp]
      exact ih h.2

theorem configs_to_df_rows_fst (s : RRStore) (b : Bool) :
    ((RRStore.configs_to_df b s).1.map Prod.fst) = s.configs.map Prod.fst := by
  unfold RRStore.configs_to_df
  rw [List.map_map]
  rfl

theorem to_df_keys_nodup (s : RRStore) (h : s.WF) :
    ((s.to_df).map rowKey).Nodup := by
  have hconf : ((RRStore.configs_to_df true s).1.map Prod.fst).Nodup := by
    rw [configs_to_df_rows_fst]
    exact h.2.1
  have hsub : ((s.to_df).map rowKey).Sublist ((s.to_df_rows).map rowKey3) := by
    unfold RRStore.to_df
    refine flatMap_map_sublist _ _ rowKey rowKey3 ?_
    intro row _
    have hlen : ((RRStore.configs_to_df true s).1.filter
        (fun c => c.1 == row.1)).length ≤ 1 :=
      length_filter_fst_le_one _ _ hconf
    show (((RRStore.configs_to_df true s).1.filter
        (fun c => c.1 == row.1)).map (fun c => (row, c.2))).map rowKey = []
      ∨ (((RRStore.configs_to_df true s).1.filter
        (fun c => c.1 == row.1)).map (fun c => (row, c.2))).map rowKey
          = [rowKey3 row]
    cases hcs : (RRStore.configs_to_df true s).1.filter
        (fun c => c.1 == row.1) with
    | nil =>
      left
      rfl
    | cons x xs =>
      cases xs with
      | nil =>
        right
        rfl
      | cons y ys =>
        rw [hcs] at hlen
        simp at hlen
  exact hsub.nodup (to_df_rows_keys_nodup s h)

/-! ### Claim theorems for the ResearchResults store -/

/-- Claim C5: `put` overwrites the entry for an id in both mappings, so
repeating `put(id, r, c)` any number of times at least once leaves the store
exactly as a single call does, and `to_df` on the resulting store (with
Python-dict-unique keys) has exactly one row per `(id, name, iteration)`
triple. -/
theorem put_idempotent_to_df_unique_rows (s : RRStore) (id : String)
    (r : List (String × List (Nat × Int))) (c : Config) (n : Nat)
    (hs : s.WF) (hr : WFExpResults r) :
    (RRStore.put id r c)^[n + 1] s = RRStore.put id r c s
    ∧ (((RRStore.put id r c s).to_df).map rowKey).Nodup :=
  ⟨put_iterate id r c s n, to_df_keys_nodup _ (WF_put s id r c hs hr)⟩

/-- Witness for C5: two successive identical puts on an empty store equal a
single put, and the resulting frame keys are unique. -/
theorem put_idempotent_to_df_unique_rows_witness :
    (RRStore.mk [] []).WF
    ∧ WFExpResults [("acc", [(0, (3 : Int)), (1, 7)])]
    ∧ ((RRStore.put "e1" [("acc", [(0, 3), (1, 7)])]
          (Config.mk [("x", "1")] [("x", "1")]))^[1 + 1] (RRStore.mk [] [])
        = RRStore.put "e1" [("acc", [(0, 3), (1, 7)])]
            (Config.mk [("x", "1")] [("x", "1")]) (RRStore.mk [] [])
      ∧ (((RRStore.put "e1" [("acc", [(0, 3), (1, 7)])]
            (Config.mk [("x", "1")] [("x", "1")])
            (RRStore.mk [] [])).to_df).map rowKey).Nodup) :=
  ⟨by unfold RRStore.WF WFExpResults; decide,
   by unfold WFExpResults; decide,
   put_idempotent_to_df_unique_rows (RRStore.mk [] []) "e1"
     [("acc", [(0, 3), (1, 7)])] (Config.mk [("x", "1")] [("x", "1")]) 1
     (by unfold RRStore.WF WFExpResults; decide)
     (by unfold WFExpResults; decide)⟩

/-- Claim C6: `filter_ids_by_configs` raises exactly when more than one of
`config`, `alias`, `domain` is given, and the call never changes the
store. -/
theorem filter_ids_raises_iff_multiple_selectors
    (config aliasArg : Option (List (String × String)))
    (domain : Option (List Config)) (kwargs : List (String × String))
    (s : RRStore) :
    ((∃ e, filter_ids_by_configs config aliasArg domain kwargs s
        = Except.error e) ↔ 1 < numGiven config aliasArg domain)
    ∧ (filter_ids_call config aliasArg domain kwargs s).2 = s := by
  refine ⟨⟨?_, ?_⟩, rfl⟩
  · rintro ⟨e, he⟩
    by_contra hn
    unfold filter_ids_by_configs at he
    rw [if_neg hn] at he
    cases domain <;> simp at he
  · intro hgt
    refine ⟨"Only one of config, alias and domain can be not None", ?_⟩
    unfold filter_ids_by_configs
    rw [if_pos hgt]

theorem pyMerge_nil (a : List (String × String)) : pyMerge a [] = a := by
  unfold pyMerge
  simp

theorem containsAll_iff (a b : List (String × String)) :
    containsAll a b = true ↔ ∀ p ∈ a, p ∈ b := by
  unfold containsAll
  rw [List.all_eq_true]
  constructor
  · intro h p hp
    exact List.elem_iff.mp (h p hp)
  · intro h p hp
    exact List.elem_iff.mpr (h p hp)

theorem filter_ids_noDomain_config (cfg kwargs : List (String × String))
    (s : RRStore) :
    filter_ids_noDomain (some cfg) none kwargs s
      = (s.configs.filter
          (fun e => containsAll (pyMerge cfg kwargs) e.2.config)).map Prod.fst := by
  by_cases hk : 0 < kwargs.length
  · unfold filter_ids_noDomain
    rw [if_pos hk]
  · have hk0 : kwargs = [] := by
      cases kwargs with
      | nil => rfl
      | cons a t => simp at hk
    subst hk0
    unfold filter_ids_noDomain
    rw [pyMerge_nil]
    rfl

/-- Claim C7: with a partial config plus keyword filters,
`filter_ids_by_configs` returns exactly the ids whose stored Configuration
contains every pair of the merged mapping `{**config, **kwargs}` (AND
semantics); with no selector and no keyword filters it returns every known
id. -/
theorem filter_ids_config_kwargs_and_semantics (s : RRStore)
    (cfg kwargs : List (String × String)) :
    (∃ ids, filter_ids_by_configs (some cfg) none none kwargs s = Except.ok ids
        ∧ ∀ i, i ∈ ids ↔ ∃ c : Config, (i, c) ∈ s.configs
            ∧ ∀ p ∈ pyMerge cfg kwargs, p ∈ c.config)
    ∧ filter_ids_by_configs none none none [] s
        = Except.ok (s.configs.map Prod.fst) := by
  constructor
  · refine ⟨(s.configs.filter
        (fun e => containsAll (pyMerge cfg kwargs) e.2.config)).map Prod.fst,
      ?_, ?_⟩
    · unfold filter_ids_by_configs
      rw [if_neg (by simp [numGiven])]
      rw [filter_ids_noDomain_config]
    · intro i
      constructor
      · intro hi
        obtain ⟨e, he, rfl⟩ := List.mem_map.mp hi
        obtain ⟨hmem, hpred⟩ := List.mem_filter.mp he
        exact ⟨e.2, hmem, (containsAll_iff _ _).mp hpred⟩
      · rintro ⟨c, hc, hcont⟩
        refine List.mem_map.mpr ⟨(i, c), ?_, rfl⟩
        exact List.mem_filter.mpr ⟨hc, (containsAll_iff _ _).mpr hcont⟩
  · unfold filter_ids_by_configs
    rw [if_neg (by simp [numGiven])]
    rfl

/-! ### Claim theorems for Research.run checks and folder creation -/

/-- Claim C8 (code bug): in every configuration the claim covers — Domain of
unknown size with no update function, or with an update scheduled only at
the end — the unbounded-domain branch of `Research.run` evaluates
`warnings.warn`, and since `research.py` binds no module-level name
`warnings`, the call raises `NameError` instead of warning and proceeding. -/
theorem unbounded_domain_check_raises_nameerror :
    run_unbounded_domain_check true true false = RunCheckOutcome.nameError
    ∧ run_unbounded_domain_check true false true = RunCheckOutcome.nameError
    ∧ run_unbounded_domain_check true true true = RunCheckOutcome.nameError
    ∧ research_module_names.contains "warnings" = false := by
  decide

theorem foldl_mkdir_mem (subs : List String) (name : String)
    (acc : List (List String)) (x : List String) (hx : x ∈ acc) :
    x ∈ subs.foldl
      (fun acc sub => if [name, sub] ∈ acc then acc else acc ++ [[name, sub]])
      acc := by
  induction subs generalizing acc with
  | nil => exact hx
  | cons sub t ih =>
    rw [List.foldl_cons]
    refine ih _ ?_
    by_cases h : [name, sub] ∈ acc
    · rw [if_pos h]
      exact hx
    · rw [if_neg h]
      exact List.mem_append.mpr (Or.inl hx)

theorem foldl_mkdir_adds (subs : List String) (name : String)
    (acc : List (List String)) :
    ∀ sub ∈ subs, [name, sub] ∈ subs.foldl
      (fun acc sub => if [name, sub] ∈ acc then acc else acc ++ [[name, sub]])
      acc := by
  induction subs generalizing acc with
  | nil => simp
  | cons s t ih =>
    intro sub hsub
    rw [List.foldl_cons]
    rcases List.mem_cons.mp hsub with rfl | hsub
    · refine foldl_mkdir_mem t name _ _ ?_
      by_cases h : [name, sub] ∈ acc
      · rw [if_pos h]
        exact h
      · rw [if_neg h]
        exact List.mem_append.mpr (Or.inr (by simp))
    · exact ih _ sub hsub

/-- Claim C9: with dumping enabled, `Research.run` raises when the research
folder already exists (refusing to overwrite), and otherwise creates the
folder together with the subfolders `configs`, `description`, `env` and
`experiments`. -/
theorem run_folder_creation_spec (name : String) (fs : List (List String)) :
    ([name] ∈ fs →
      run_setup_folders true name fs
        = Except.error ("Research with name " ++ name ++ " already exists"))
    ∧ ([name] ∉ fs → ∃ fs2,
        run_setup_folders true name fs = Except.ok fs2
        ∧ [name] ∈ fs2
        ∧ ∀ sub ∈ (["configs", "description", "env", "experiments"] : List String),
            [name, sub] ∈ fs2) := by
  constructor
  · intro h
    unfold run_setup_folders create_research_folder
    rw [if_pos rfl, if_pos h]
  · intro h
    unfold run_setup_folders create_research_folder
    rw [if_pos rfl, if_neg h]
    refine ⟨_, rfl, ?_, ?_⟩
    · exact foldl_mkdir_mem _ _ _ _ (List.mem_append.mpr (Or.inr (by simp)))
    · intro sub hsub
      exact foldl_mkdir_adds _ _ _ sub hsub

/-- Witness for C9: on an empty filesystem the folder `research` is created
with all four subfolders. -/
theorem run_folder_creation_spec_witness :
    (["research"] ∉ ([] : List (List String)))
    ∧ ∃ fs2, run_setup_folders true "research" [] = Except.ok fs2
        ∧ ["research"] ∈ fs2
        ∧ ∀ sub ∈ (["configs", "description", "env", "experiments"] : List String),
            ["research", sub] ∈ fs2 :=
  ⟨by decide, (run_folder_creation_spec "research" []).2 (by decide)⟩

/-- Claim C10 counterexample: on a store holding one Configuration with the
key `repetition`, `configs_to_df` with `remove_auxilary = True` leaves the
store exactly as it was — the stored Configuration still contains
`repetition` — because `self.configs[experiment_id]` on the Manager dict
proxy returns a copy and `pop_config` mutates only that copy, contradicting
the claim that the stored Configurations lose those keys. -/
theorem configs_to_df_mutation_counterexample :
    (RRStore.configs_to_df true
        (RRStore.mk [] [("e1", Config.mk [("repetition", "0"), ("x", "1")]
          [("repetition", "0"), ("x", "1")])])).2
      = RRStore.mk [] [("e1", Config.mk [("repetition", "0"), ("x", "1")]
          [("repetition", "0"), ("x", "1")])]
    ∧ ((RRStore.configs_to_df true
        (RRStore.mk [] [("e1", Config.mk [("repetition", "0"), ("x", "1")]
          [("repetition", "0"), ("x", "1")])])).2.configs.map
            (fun e => e.2.cfg.any (fun p => p.1 == "repetition"))) = [true] := by
  decide

/-- Claim C10 (amended): `configs_to_df` with `remove_auxilary = True`
removes `repetition` and `device` only from the per-call copies used to
build the returned frame — every returned row lacks those keys — while the
stored Configurations are left unchanged, because the configs mapping is a
Manager dict whose getitem returns copies; subsequent queries still see the
auxiliary keys. -/
theorem configs_to_df_pure_on_store (s : RRStore) (b : Bool) :
    (RRStore.configs_to_df b s).2 = s
    ∧ (∀ row ∈ (RRStore.configs_to_df true s).1, ∀ p ∈ row.2,
        p.1 ≠ "repetition" ∧ p.1 ≠ "device") := by
  refine ⟨rfl, ?_⟩
  intro row hrow p hp
  unfold RRStore.configs_to_df at hrow
  obtain ⟨e, he, rfl⟩ := List.mem_map.mp hrow
  have hp2 : p ∈ ((e.2.pop_config "repetition").pop_config "device").alias := hp
  unfold Config.pop_config Config.alias at hp2
  obtain ⟨hp3, hdev⟩ := List.mem_filter.mp hp2
  obtain ⟨hp4, hrep⟩ := List.mem_filter.mp hp3
  constructor
  · simpa using hrep
  · simpa using hdev

/-- Witness for the amended C10 at a concrete store whose Configuration
carries both auxiliary keys. -/
theorem configs_to_df_pure_on_store_witness :
    (RRStore.configs_to_df true
        (RRStore.mk [] [("e1", Config.mk
          [("repetition", "0"), ("device", "0"), ("x", "1")]
          [("repetition", "0"), ("device", "0"), ("x", "1")])])).2
      = RRStore.mk [] [("e1", Config.mk
          [("repetition", "0"), ("device", "0"), ("x", "1")]
          [("repetition", "0"), ("device", "0"), ("x", "1")])]
    ∧ (∀ row ∈ (RRStore.configs_to_df true
        (RRStore.mk [] [("e1", Config.mk
          [("repetition", "0"), ("device", "0"), ("x", "1")]
          [("repetition", "0"), ("device", "0"), ("x", "1")])])).1,
        ∀ p ∈ row.2, p.1 ≠ "repetition" ∧ p.1 ≠ "device") :=
  configs_to_df_pure_on_store
    (RRStore.mk [] [("e1", Config.mk
      [("repetition", "0"), ("device", "0"), ("x", "1")]
      [("repetition", "0"), ("device", "0"), ("x", "1")])]) true
